import Mathlib

/-!
# Verification of the bsdiff/bspatch core and patch-stream probe

This file gives a shallow embedding, in Lean 4, of the Go sources of the
delta-compression engine: the suffix-array builder (`qsufsort` with the
ternary-split quicksort `split`), the binary-search matcher (`search`,
`matchlen`), the diff engine (`BSDiff`), the patch applier (`BSPatch`),
and the patch-stream probe (`analyzeRsync`, `analyzeBsdiff`, `skipSeries`).

Modelling conventions:
* Bytes are `Fin 256`; Go's wrapping byte arithmetic is the ring structure
  of `Fin 256`.
* Go `int`/`int64` variables are `Int`.
* Go slices become `List`s; in-place integer arrays (`I`, `V`, `buckets`)
  become `List Int` mutated by functional update.  A read that Go would
  reject with an index-out-of-range panic is totalized to a default value
  (`0` for bytes, `0` for ints, no-op for writes); every theorem below is
  about executions in which the Go program does not panic, where both
  semantics agree.
* Loops with no structural variant are translated with an explicit fuel
  argument that dominates the number of iterations the Go loop can make
  on the inputs considered by the theorems.
* The message-framed wire streams are typed lists of messages; a
  `ReadMessage` into a struct of the wrong kind is totalized to a read
  error.
-/

namespace Butler

/-- A byte, with Go's wrapping (mod-256) arithmetic. -/
abbrev Byte := Fin 256

/-- Read a byte list at a (possibly out-of-range) `Int` index.
Go panics on such accesses; the model returns `0`. -/
def byteAtI (l : List Byte) (i : Int) : Byte :=
  if 0 ≤ i then l.getD i.toNat 0 else 0

/-- Read an int list at a (possibly out-of-range) `Int` index. -/
def intAtI (l : List Int) (i : Int) : Int :=
  if 0 ≤ i then l.getD i.toNat 0 else 0

/-- Write an int list at an `Int` index (no-op when out of range,
where Go would panic). -/
def setIntI (l : List Int) (i : Int) (v : Int) : List Int :=
  if 0 ≤ i then l.set i.toNat v else l

/-- Write a byte list at an `Int` index (no-op when out of range). -/
def setByteI (l : List Byte) (i : Int) (v : Byte) : List Byte :=
  if 0 ≤ i then l.set i.toNat v else l

/-- The Go slice `buf[i:]` for an `Int` index (clamped below at `0`,
where Go would panic on a negative index). -/
def sliceFromI (buf : List Byte) (i : Int) : List Byte :=
  buf.drop i.toNat

/-- `matchlen(a, b)`: the number of leading bytes common to `a` and `b`. -/
def matchlen : List Byte → List Byte → Nat
  | a :: as, b :: bs => if a = b then matchlen as bs + 1 else 0
  | _, _ => 0

/-- Go's `bytes.Compare`: lexicographic order, a proper prefix is smaller. -/
def bytesCompare : List Byte → List Byte → Ordering
  | [], [] => .eq
  | [], _ :: _ => .lt
  | _ :: _, [] => .gt
  | a :: as, b :: bs =>
      if a < b then .lt else if b < a then .gt else bytesCompare as bs

/-- The binary search `search(I, obuf, nbuf, st, en)` over the suffix
array `I`, returning `(pos, n)`: an offset into `obuf` and the length of
the common prefix of `obuf[pos:]` and `nbuf`. -/
def search (I : List Int) (obuf nbuf : List Byte) (st en : Nat) : Int × Nat :=
  if en - st < 2 then
    let x := matchlen (sliceFromI obuf (intAtI I st)) nbuf
    let y := matchlen (sliceFromI obuf (intAtI I en)) nbuf
    if x > y then (intAtI I st, x) else (intAtI I en, y)
  else
    let mid := st + (en - st) / 2
    if bytesCompare (sliceFromI obuf (intAtI I mid)) nbuf = .lt then
      search I obuf nbuf mid en
    else
      search I obuf nbuf st mid
termination_by en - st
decreasing_by
  · omega
  · have : (en - st) / 2 < en - st := Nat.div_lt_self (by omega) (by omega)
    omega

/-! ## The bsdiff patch stream consumed by `BSPatch` -/

/-- A control triple `(Add, Copy, Seek)` of the bsdiff wire format
(`BsdiffControl`). -/
structure Ctrl where
  add : Int
  copy : Int
  seek : Int
deriving DecidableEq, Repr

/-- The typed messages `BSPatch` reads from its `wire.ReadContext`:
control triples, then one diff-data block, then one extra-data block. -/
inductive PMsg where
  | ctrl (add copy seek : Int)
  | diffData (d : List Byte)
  | extraData (d : List Byte)
deriving DecidableEq, Repr

/-- The errors `BSPatch` can return: `ErrCorrupt`, or a failure of the
underlying message reader (stream exhausted / message of the wrong kind). -/
inductive BSErr where
  | errCorrupt
  | readErr
deriving DecidableEq, Repr

/-- The first loop of `BSPatch`: read control messages until the
`Add == -1` sentinel, collecting them. -/
def readCtrls : List PMsg → Except BSErr (List Ctrl × List PMsg)
  | .ctrl a c s :: rest =>
      if a = -1 then .ok ([], rest)
      else do
        let (cs, r) ← readCtrls rest
        .ok (⟨a, c, s⟩ :: cs, r)
  | _ => .error .readErr

/-- Go's `copy(dst[dstStart:dstStart+n], src[srcStart:srcStart+n])` on
byte slices, totalized (out-of-range reads yield `0`, out-of-range
writes are dropped, where Go would panic). -/
def copyBytes (dst : List Byte) (dstStart : Int) (src : List Byte)
    (srcStart : Int) : Nat → List Byte
  | 0 => dst
  | n + 1 =>
      copyBytes (setByteI dst dstStart (byteAtI src srcStart)) (dstStart + 1)
        src (srcStart + 1) n

/-- The "add old data to diff string" loop of `BSPatch`:
`nbuf[newpos+i] += obuf[oldpos+i]` for `i < n`. -/
def addOldBytes (nbuf obuf : List Byte) (newpos oldpos : Int) : Nat → List Byte
  | 0 => nbuf
  | n + 1 =>
      addOldBytes
        (setByteI nbuf newpos (byteAtI nbuf newpos + byteAtI obuf oldpos))
        obuf (newpos + 1) (oldpos + 1) n

/-- The mutable state of `BSPatch`'s triple loop. -/
structure PatchState where
  nbuf : List Byte
  oldpos : Int
  newpos : Int
  diffOff : Int
  extraOff : Int
deriving Repr

/-- The control-triple loop of `BSPatch` over the already-collected
triples: sanity-check against `newSize`, copy diff bytes, add old bytes,
copy extra bytes, adjust the cursors. -/
def bspatchLoop (obuf : List Byte) (newSize : Int) (diff extra : List Byte) :
    List Ctrl → PatchState → Except BSErr PatchState
  | [], st => .ok st
  | c :: cs, st =>
      if st.newpos + c.add > newSize then .error .errCorrupt
      else
        let nbuf1 := copyBytes st.nbuf st.newpos diff st.diffOff c.add.toNat
        let nbuf2 := addOldBytes nbuf1 obuf st.newpos st.oldpos c.add.toNat
        let newpos1 := st.newpos + c.add
        if newpos1 + c.copy > newSize then .error .errCorrupt
        else
          let nbuf3 := copyBytes nbuf2 newpos1 extra st.extraOff c.copy.toNat
          bspatchLoop obuf newSize diff extra cs
            ⟨nbuf3, st.oldpos + c.add + c.seek, newpos1 + c.copy,
              st.diffOff + c.add, st.extraOff + c.copy⟩

/-- `BSPatch(old, new, newSize, patch)`: read the triples up to the
sentinel, the diff block and the extra block, then run the triple loop
on a zeroed buffer of `newSize` bytes and return the reconstructed
buffer. -/
def bspatch (obuf : List Byte) (newSize : Int) (stream : List PMsg) :
    Except BSErr (List Byte) := do
  let (ctrls, r1) ← readCtrls stream
  match r1 with
  | .diffData diff :: .extraData extra :: _ =>
      (bspatchLoop obuf newSize diff extra ctrls
        ⟨List.replicate newSize.toNat 0, 0, 0, 0, 0⟩).map (·.nbuf)
  | _ => .error .readErr

/-- `BSPatch` including its output writer: the bytes written to `new`
are produced only by the write loop that follows the triple loop, so a
failing run writes nothing.  Returns (bytes written, error if any). -/
def bspatchFull (obuf : List Byte) (newSize : Int) (stream : List PMsg) :
    List Byte × Option BSErr :=
  match bspatch obuf newSize stream with
  | .error e => ([], some e)
  | .ok nbuf => (nbuf, none)

/-- The total output size `Σ (add + copy)` declared by a triple list. -/
def sumAddCopy : List Ctrl → Int
  | [] => 0
  | c :: cs => c.add + c.copy + sumAddCopy cs

/-- The wire encoding of a triple list (one `ctrl` message each). -/
def ctrlMsgs : List Ctrl → List PMsg
  | [] => []
  | c :: cs => .ctrl c.add c.copy c.seek :: ctrlMsgs cs

/-- Parsing the wire encoding of a sentinel-free triple list recovers it. -/
theorem readCtrls_encode (ctrls : List Ctrl) (rest : List PMsg)
    (h : ∀ c ∈ ctrls, c.add ≠ -1) :
    readCtrls (ctrlMsgs ctrls ++ .ctrl (-1) 0 0 :: rest) = .ok (ctrls, rest) := by
  induction ctrls with
  | nil => simp [ctrlMsgs, readCtrls]
  | cons c cs ih =>
      have hc : c.add ≠ -1 := h c (by simp)
      have ihh := ih (fun d hd => h d (by simp [hd]))
      simp only [ctrlMsgs, List.cons_append, readCtrls, hc, if_false, if_neg,
        List.append_eq, ihh]
      rfl

/-- If the triples still to process declare more output than remains
below `newSize`, the triple loop fails with `ErrCorrupt`. -/
theorem bspatchLoop_overrun (obuf : List Byte) (newSize : Int)
    (diff extra : List Byte) (ctrls : List Ctrl) (st : PatchState)
    (hle : st.newpos ≤ newSize)
    (hgt : newSize < st.newpos + sumAddCopy ctrls) :
    bspatchLoop obuf newSize diff extra ctrls st = .error .errCorrupt := by
  induction ctrls generalizing st with
  | nil => simp [sumAddCopy] at hgt; omega
  | cons c cs ih =>
      simp only [bspatchLoop]
      by_cases h1 : st.newpos + c.add > newSize
      · simp [h1]
      · simp only [h1, if_false]
        by_cases h2 : st.newpos + c.add + c.copy > newSize
        · simp [h2]
        · simp only [h2, if_false]
          exact ih _ (by simp; omega) (by simp [sumAddCopy] at hgt ⊢; omega)

/-- C3: if the control triples read by `BSPatch` declare a total of
`add + copy` bytes greater than the declared new size, then `BSPatch`
returns `ErrCorrupt` — at the first triple whose `newpos + add` or
`newpos + copy` would exceed `newSize` — and never returns success with
a wrong output. -/
theorem bspatch_overrun_corrupt (obuf : List Byte) (newSize : Int)
    (ctrls : List Ctrl) (diff extra : List Byte) (rest : List PMsg)
    (hsent : ∀ c ∈ ctrls, c.add ≠ -1)
    (hsize : 0 ≤ newSize)
    (hsum : newSize < sumAddCopy ctrls) :
    bspatch obuf newSize
      (ctrlMsgs ctrls ++
        .ctrl (-1) 0 0 :: .diffData diff :: .extraData extra :: rest) =
      .error .errCorrupt := by
  unfold bspatch
  rw [readCtrls_encode _ _ hsent]
  show (bspatchLoop obuf newSize diff extra ctrls _).map _ = _
  rw [bspatchLoop_overrun obuf newSize diff extra ctrls _ (by simpa using hsize)
    (by simpa using hsum)]
  rfl

/-- Witness for C3 at a concrete input: one triple declaring one byte
against a declared size of zero. -/
theorem bspatch_overrun_corrupt_witness :
    bspatch [] 0
      (ctrlMsgs [⟨1, 0, 0⟩] ++
        .ctrl (-1) 0 0 :: .diffData [] :: .extraData [] :: []) =
      .error .errCorrupt :=
  bspatch_overrun_corrupt [] 0 [⟨1, 0, 0⟩] [] [] []
    (by decide) (by decide) (by decide)

/-- C10: `BSPatch` writes to the output writer only after the whole
triple loop has passed every bounds check; whenever it returns an error
(in particular `ErrCorrupt`), zero bytes have been written. -/
theorem bspatchFull_error_writes_nothing (obuf : List Byte) (newSize : Int)
    (stream : List PMsg) (e : BSErr)
    (h : (bspatchFull obuf newSize stream).2 = some e) :
    (bspatchFull obuf newSize stream).1 = [] := by
  unfold bspatchFull at h ⊢
  cases hb : bspatch obuf newSize stream <;> simp [hb] at h ⊢

/-- Witness for C10 at a concrete input: an empty patch stream fails and
writes nothing. -/
theorem bspatchFull_error_writes_nothing_witness :
    (bspatchFull [] 0 []).2 = some .readErr ∧ (bspatchFull [] 0 []).1 = [] :=
  ⟨by decide, bspatchFull_error_writes_nothing [] 0 [] .readErr (by decide)⟩

/-- C4 counterexample: in the binary-search base case with equal
common-prefix lengths at both endpoints, `search` returns the
*upper*-index endpoint `I[en]`, not the lower one `I[st]` as claimed.
Here `obuf = [5, 5]`, `I = [0, 1]`, `nbuf = [7]`: both endpoints have
common-prefix length `0`, and the result is `(I[1], 0) = (1, 0)`,
not `(I[0], 0) = (0, 0)`. -/
theorem search_tie_returns_upper :
    matchlen (sliceFromI [5, 5] (intAtI [0, 1] 0)) [7] =
        matchlen (sliceFromI [5, 5] (intAtI [0, 1] 1)) [7] ∧
      search [0, 1] [5, 5] [7] 0 1 = (1, 0) ∧
      (1, 0) ≠ ((intAtI [0, 1] 0, matchlen (sliceFromI [5, 5] (intAtI [0, 1] 0)) [7]) : Int × Nat) := by
  refine ⟨by decide, ?_, by decide⟩
  rw [search]
  decide

/-- C4 (amended): in the binary-search base case (index range of size
`< 2`), `search` evaluates the common-prefix lengths of both endpoint
suffixes against the new suffix and returns the endpoint with the longer
common prefix; when the two lengths are equal it returns the
upper-index endpoint `I[en]`. -/
theorem search_base_case (I : List Int) (obuf nbuf : List Byte) (st en : Nat)
    (h : en - st < 2) :
    search I obuf nbuf st en =
      if matchlen (sliceFromI obuf (intAtI I st)) nbuf >
          matchlen (sliceFromI obuf (intAtI I en)) nbuf then
        (intAtI I st, matchlen (sliceFromI obuf (intAtI I st)) nbuf)
      else
        (intAtI I en, matchlen (sliceFromI obuf (intAtI I en)) nbuf) := by
  rw [search]
  simp [h]

/-- Witness for C4's amended theorem at a concrete input. -/
theorem search_base_case_witness :
    (0 : Nat) - 0 < 2 ∧
      search [0] [3] [3] 0 0 =
        if matchlen (sliceFromI [3] (intAtI [0] 0)) [3] >
            matchlen (sliceFromI [3] (intAtI [0] 0)) [3] then
          (intAtI [0] 0, matchlen (sliceFromI [3] (intAtI [0] 0)) [3])
        else
          (intAtI [0] 0, matchlen (sliceFromI [3] (intAtI [0] 0)) [3]) :=
  ⟨by decide, search_base_case [0] [3] [3] 0 0 (by decide)⟩

/-! ## The suffix-array builder `qsufsort` / `split`

The in-place `I`/`V` arrays are `List Int` with functional update.
Loops with a structural variant are translated by well-founded
recursion; the loops of `split` and the group scan of `qsufsort`, whose
termination rests on the algorithm's invariants, take an explicit fuel
that dominates their iteration count on every non-panicking Go run
(each fuel bound is at least `3·length + 3` for a loop that advances one
of at most three cursors per iteration). -/

/-- `swap(a, i, j)`. -/
def swapI (l : List Int) (i j : Int) : List Int :=
  setIntI (setIntI l i (intAtI l j)) j (intAtI l i)

/-- The inner scan of `split`'s small-group selection sort: find the
minimal key `x = V[I[k+i]+h]` over the group, moving key-equal elements
to the front; returns the updated `I`, the count `j` of minimal
elements, and the minimal key `x`.  `fuel` dominates the length of the
group. -/
def selectScan (V : List Int) (h : Int) (start ln k : Int) :
    Nat → Int → List Int → Int → Int → List Int × Int × Int
  | 0, _, I, j, x => (I, j, x)
  | fuel + 1, i, I, j, x =>
      if k + i < start + ln then
        let key := intAtI V (intAtI I (k + i) + h)
        let (I', j', x') :=
          if key < x then
            -- a new minimum: reset the group, then the equality test below
            -- fires on the same (just-assigned) value
            (swapI I (k + i) (k + 0), 1, key)
          else if key = x then
            (swapI I (k + i) (k + j), j + 1, x)
          else
            (I, j, x)
        selectScan V h start ln k fuel (i + 1) I' j' x'
      else (I, j, x)

/-- `V[I[k+i]] := k+j-1` for `i < j`: re-rank a freshly isolated
minimal group. -/
def rerank (I : List Int) (k : Int) (j : Int) (V : List Int) : List Int :=
  (List.range j.toNat).foldl
    (fun V' i => setIntI V' (intAtI I (k + (i : Int))) (k + j - 1)) V

/-- The small-group branch of `split` (`length < 16`): repeated
selection of the minimal-key group.  `fuel` dominates the number of
groups (each pass isolates at least one element). -/
def selectSort (fuel : Nat) (V : List Int) (h : Int)
    (start ln : Int) (k : Int) (I : List Int) : List Int × List Int :=
  match fuel with
  | 0 => (I, V)
  | fuel + 1 =>
    if k < start + ln then
      let x0 := intAtI V (intAtI I k + h)
      let (I1, j, _) := selectScan V h start ln k (ln.toNat + 1) 1 I 1 x0
      let V1 := rerank I1 k j V
      let I2 := if j = 1 then setIntI I1 k (-1) else I1
      selectSort fuel V1 h start ln (k + j) I2
    else (I, V)

/-- The first partition loop of `split`'s large branch: three-way
partition of `[start, jj)` against pivot key `x`, bubbling `=` keys to
`jj+j` and `>` keys to `kk+k`. -/
def partitionA (V : List Int) (h x : Int) (jj kk : Int) (fuel : Nat)
    (I : List Int) (i j k : Int) : List Int × Int × Int :=
  match fuel with
  | 0 => (I, j, k)
  | fuel + 1 =>
    if i < jj then
      let key := intAtI V (intAtI I i + h)
      if key < x then
        partitionA V h x jj kk fuel I (i + 1) j k
      else if key = x then
        partitionA V h x jj kk fuel (swapI I i (jj + j)) i (j + 1) k
      else
        partitionA V h x jj kk fuel (swapI I i (kk + k)) i j (k + 1)
    else (I, j, k)

/-- The second partition loop of `split`'s large branch: finish placing
`=` and `>` keys in `[jj+j, kk)`. -/
def partitionB (V : List Int) (h x : Int) (jj kk : Int) (fuel : Nat)
    (I : List Int) (j k : Int) : List Int :=
  match fuel with
  | 0 => I
  | fuel + 1 =>
    if jj + j < kk then
      if intAtI V (intAtI I (jj + j) + h) = x then
        partitionB V h x jj kk fuel I (j + 1) k
      else
        partitionB V h x jj kk fuel (swapI I (jj + j) (kk + k)) j (k + 1)
    else I

/-- The number of indices `i ∈ [start, start+ln)` whose key
`V[I[i]+h]` satisfies `p`. -/
def countKeys (I V : List Int) (h : Int) (start ln : Int)
    (p : Int → Bool) : Int :=
  ((List.range ln.toNat).filter
    (fun (i : Nat) => p (intAtI V (intAtI I (start + (i : Int)) + h)))).length

/-- Ternary-split quicksort `split(I, V, start, length, h)`: sorts the
group `I[start : start+length]` by the key `V[I[·]+h]`, updates `V` to
the new subgroup ranks, and marks singleton subgroups with `-1`. -/
def split (fuel : Nat) (I V : List Int) (start ln h : Int) :
    List Int × List Int :=
  match fuel with
  | 0 => (I, V)
  | fuel + 1 =>
    if ln < 16 then
      selectSort (ln.toNat + 1) V h start ln start I
    else
      let x := intAtI V (intAtI I (start + ln / 2) + h)
      let jj := start + countKeys I V h start ln (fun key => key < x)
      let kk := jj + countKeys I V h start ln (fun key => key = x)
      let (I1, j1, k1) :=
        partitionA V h x jj kk (3 * ln.toNat + 3) I start 0 0
      let I2 := partitionB V h x jj kk (2 * ln.toNat + 2) I1 j1 k1
      let (I3, V3) :=
        if start < jj then split fuel I2 V start (jj - start) h
        else (I2, V)
      let V4 := (List.range (kk - jj).toNat).foldl
        (fun V' i => setIntI V' (intAtI I3 (jj + (i : Int))) (kk - 1)) V3
      let I4 := if jj = kk - 1 then setIntI I3 jj (-1) else I3
      if start + ln > kk then split fuel I4 V4 kk (start + ln - kk) h
      else (I4, V4)

/-- One pass of `qsufsort`'s depth-`h` refinement: scan `I`, skipping
(and merging) the negative run-length records of already-sorted
groups and calling `split` on every unsorted group. -/
def qsScan (h : Int) (n1 : Nat) (fuel : Nat) (I V : List Int)
    (i nrun : Int) : List Int × List Int :=
  match fuel with
  | 0 => (I, V)
  | fuel + 1 =>
    if i < (n1 : Int) then
      if intAtI I i < 0 then
        qsScan h n1 fuel I V (i - intAtI I i) (nrun - intAtI I i)
      else
        let I1 := if nrun ≠ 0 then setIntI I (i - nrun) (-nrun) else I
        let ln := intAtI V (intAtI I1 i) + 1 - i
        let (I2, V2) := split (ln.toNat + 1) I1 V i ln h
        qsScan h n1 fuel I2 V2 (i + ln) 0
    else
      (if nrun ≠ 0 then setIntI I (i - nrun) (-nrun) else I, V)

/-- The depth-doubling loop of `qsufsort`: refine until `I[0]` records
a sorted run spanning the whole array (`I[0] == -(len(obuf)+1)`). -/
def qsHLoop (n1 : Nat) (fuel : Nat) (h : Int) (I V : List Int) :
    List Int × List Int :=
  match fuel with
  | 0 => (I, V)
  | fuel + 1 =>
    if intAtI I 0 = -(n1 : Int) then (I, V)
    else
      let (I', V') := qsScan h n1 (n1 + 2) I V 0 0
      qsHLoop n1 fuel (h + h) I' V'

/-- The bucket-initialization phase of `qsufsort` (steps before the
doubling loop), returning the initial `I` and `V`. -/
def qsInit (obuf : List Byte) : List Int × List Int :=
  let n := obuf.length
  let b1 := obuf.foldl
    (fun b c => setIntI b c.val (intAtI b c.val + 1)) (List.replicate 256 0)
  let b2 := (List.range' 1 255).foldl
    (fun b i => setIntI b (i : Int) (intAtI b (i : Int) + intAtI b ((i : Int) - 1))) b1
  -- copy(buckets[1:], buckets[:]); buckets[0] = 0 : a right shift
  let b3 := 0 :: b2.take 255
  let (b4, Ia) := obuf.enum.foldl
    (fun (st : List Int × List Int) p =>
      let b' := setIntI st.1 p.2.val (intAtI st.1 p.2.val + 1)
      (b', setIntI st.2 (intAtI b' p.2.val) (p.1 : Int)))
    (b3, List.replicate (n + 1) 0)
  let Ib := setIntI Ia 0 (n : Int)
  let V1 := obuf.enum.foldl
    (fun V p => setIntI V (p.1 : Int) (intAtI b4 p.2.val))
    (List.replicate (n + 1) 0)
  let V2 := setIntI V1 (n : Int) 0
  let Ic := (List.range' 1 255).foldl
    (fun I' i =>
      if intAtI b4 (i : Int) = intAtI b4 ((i : Int) - 1) + 1 then
        setIntI I' (intAtI b4 (i : Int)) (-1)
      else I') Ib
  let Id := setIntI Ic 0 (-1)
  (Id, V2)

/-- `qsufsort(obuf)`: build the sorted suffix array of `obuf`. -/
def qsufsort (obuf : List Byte) : List Int :=
  let n := obuf.length
  let (I0, V0) := qsInit obuf
  let IV := qsHLoop (n + 1) (n + 2) 1 I0 V0
  -- final inversion: I[V[i]] = i
  (List.range (n + 1)).foldl
    (fun I' i => setIntI I' (intAtI IV.2 (i : Int)) (i : Int)) IV.1

/-! ## The diff engine `BSDiff` -/

/-- The `oldscore` position test of the diff scan:
`i+lastoffset < len(obuf) && obuf[i+lastoffset] == nbuf[i]`. -/
def oldMatch (obuf nbuf : List Byte) (lastoffset i : Int) : Bool :=
  i + lastoffset < (obuf.length : Int) &&
    byteAtI obuf (i + lastoffset) == byteAtI nbuf i

/-- The `oldscore` accumulation loop
`for ; scsc < hi; scsc++ { if ... { oldscore++ } }`;
returns the final `(scsc, oldscore)`. -/
def scoreLoop (obuf nbuf : List Byte) (lastoffset : Int)
    (scsc hi oldscore : Int) : Int × Int :=
  if h : scsc < hi then
    scoreLoop obuf nbuf lastoffset (scsc + 1) hi
      (cond (oldMatch obuf nbuf lastoffset scsc) (oldscore + 1) oldscore)
  else (scsc, oldscore)
termination_by (hi - scsc).toNat
decreasing_by omega

/-- The state in which the scan loop of `BSDiff` leaves its mutable
variables. -/
structure InnerRes where
  scan : Int
  scsc : Int
  oldscore : Int
  pos : Int
  len : Nat
deriving Repr

/-- The scan loop of `BSDiff`
(`for scsc := scan; scan < len(nbuf); scan++ { ... }`): search for a
fresh match at `scan`, accumulate `oldscore`, and stop when the fresh
match is decisively better (`length > oldscore+8`) or exactly as good
(`length == oldscore && length != 0`). -/
def innerLoop (I : List Int) (obuf nbuf : List Byte) (lastoffset : Int)
    (scan scsc oldscore pos : Int) (len : Nat) : InnerRes :=
  if h : scan < (nbuf.length : Int) then
    let sr := search I obuf (sliceFromI nbuf scan) 0 obuf.length
    let so := scoreLoop obuf nbuf lastoffset scsc (scan + sr.2) oldscore
    if ((sr.2 : Int) = so.2 ∧ sr.2 ≠ 0) ∨ (sr.2 : Int) > so.2 + 8 then
      ⟨scan, so.1, so.2, sr.1, sr.2⟩
    else
      innerLoop I obuf nbuf lastoffset (scan + 1) so.1
        (cond (oldMatch obuf nbuf lastoffset scan) (so.2 - 1) so.2)
        sr.1 sr.2
  else ⟨scan, scsc, oldscore, pos, len⟩
termination_by ((nbuf.length : Int) - scan).toNat
decreasing_by omega

/-- The forward-extension loop computing `lenf`: maximize
`2*matches - length` over prefixes of the region `[lastscan, scan)`
matched against `obuf[lastpos:]`. -/
def extendForward (obuf nbuf : List Byte) (lastscan lastpos scan : Int)
    (i s Sf lenf : Int) : Int :=
  if h : lastscan + i < scan ∧ lastpos + i < (obuf.length : Int) then
    let s' := if byteAtI obuf (lastpos + i) == byteAtI nbuf (lastscan + i)
      then s + 1 else s
    let i' := i + 1
    if s' * 2 - i' > Sf * 2 - lenf then
      extendForward obuf nbuf lastscan lastpos scan i' s' s' i'
    else
      extendForward obuf nbuf lastscan lastpos scan i' s' Sf lenf
  else lenf
termination_by (scan - lastscan - i).toNat
decreasing_by all_goals omega

/-- The backward-extension loop computing `lenb`: maximize
`2*matches - length` over suffixes ending just before `scan`, matched
backward from `pos`. -/
def extendBackward (obuf nbuf : List Byte) (lastscan scan pos : Int)
    (i s Sb lenb : Int) : Int :=
  if h : lastscan + i ≤ scan ∧ i ≤ pos then
    let s' := if byteAtI obuf (pos - i) == byteAtI nbuf (scan - i)
      then s + 1 else s
    let p := s' * 2 - i > Sb * 2 - lenb
    extendBackward obuf nbuf lastscan scan pos (i + 1) s'
      (if p then s' else Sb) (if p then i else lenb)
  else lenb
termination_by (scan - lastscan - i + 1).toNat
decreasing_by omega

/-- The overlap-resolution loop computing `lens`: the split point of an
overlapping forward/backward extension maximizing
(forward matches) − (backward matches). -/
def overlapLoop (obuf nbuf : List Byte)
    (lastscan lastpos scan pos lenf lenb overlap : Int)
    (i s Ss lens : Int) : Int :=
  if h : i < overlap then
    let s1 := if byteAtI nbuf (lastscan + lenf - overlap + i) ==
        byteAtI obuf (lastpos + lenf - overlap + i) then s + 1 else s
    let s2 := if byteAtI nbuf (scan - lenb + i) ==
        byteAtI obuf (pos - lenb + i) then s1 - 1 else s1
    let p := s2 > Ss
    overlapLoop obuf nbuf lastscan lastpos scan pos lenf lenb overlap
      (i + 1) s2 (if p then s2 else Ss) (if p then i + 1 else lens)
  else lens
termination_by (overlap - i).toNat
decreasing_by omega

/-- The mutable state of `BSDiff`'s outer loop, together with the
accumulated output (control triples, diff block `db`, extra block
`eb`). -/
structure DiffState where
  scan : Int
  len : Nat
  pos : Int
  lastscan : Int
  lastpos : Int
  lastoffset : Int
  ctrls : List Ctrl
  db : List Byte
  eb : List Byte
deriving Repr

/-- The forward/backward extension lengths `(lenf, lenb)` of one emit
step of `BSDiff`, after overlap resolution. -/
def emitParts (obuf nbuf : List Byte) (lastscan lastpos scan pos : Int) :
    Int × Int :=
  let lenf0 := extendForward obuf nbuf lastscan lastpos scan 0 0 0 0
  let lenb0 :=
    if scan < (nbuf.length : Int) then
      extendBackward obuf nbuf lastscan scan pos 1 0 0 0
    else 0
  if lastscan + lenf0 > scan - lenb0 then
    let overlap := (lastscan + lenf0) - (scan - lenb0)
    let lens := overlapLoop obuf nbuf lastscan lastpos scan pos
      lenf0 lenb0 overlap 0 0 0 0
    (lenf0 + lens - overlap, lenb0 - lens)
  else (lenf0, lenb0)

/-- The emit step of `BSDiff`: compute `lenf`/`lenb`, resolve any
overlap, append the diff bytes (`nbuf - obuf`, wrapping) and the extra
bytes, write one control triple, and advance
`lastscan`/`lastpos`/`lastoffset`. -/
def emitCtrl (obuf nbuf : List Byte) (st : DiffState) (scan pos : Int) :
    DiffState :=
  let lenf := (emitParts obuf nbuf st.lastscan st.lastpos scan pos).1
  let lenb := (emitParts obuf nbuf st.lastscan st.lastpos scan pos).2
  let dNew := (List.range lenf.toNat).map fun (k : Nat) =>
    byteAtI nbuf (st.lastscan + (k : Int)) - byteAtI obuf (st.lastpos + (k : Int))
  let copyLen := (scan - lenb) - (st.lastscan + lenf)
  let eNew := (List.range copyLen.toNat).map fun (k : Nat) =>
    byteAtI nbuf (st.lastscan + lenf + (k : Int))
  { st with
    ctrls := st.ctrls ++ [⟨lenf, copyLen, (pos - lenb) - (st.lastpos + lenf)⟩]
    db := st.db ++ dNew
    eb := st.eb ++ eNew
    lastscan := scan - lenb
    lastpos := pos - lenb
    lastoffset := pos - scan }

/-- `scoreLoop` never decreases `oldscore`. -/
theorem scoreLoop_oldscore_ge (obuf nbuf : List Byte) (lastoffset scsc hi oldscore : Int) :
    oldscore ≤ (scoreLoop obuf nbuf lastoffset scsc hi oldscore).2 := by
  induction scsc, hi, oldscore using scoreLoop.induct obuf nbuf lastoffset with
  | case1 scsc hi oldscore h ih =>
      rw [scoreLoop, dif_pos h]
      refine le_trans ?_ ih
      cases oldMatch obuf nbuf lastoffset scsc <;> simp
  | case2 scsc hi oldscore h =>
      rw [scoreLoop, dif_neg h]

/-- Progress of the scan loop: `scan` never moves backward, and a
return without advancing `scan` (from a start below the end of `nbuf`
and a nonnegative `oldscore`) carries a nonzero match length. -/
theorem innerLoop_progress (I : List Int) (obuf nbuf : List Byte)
    (lastoffset scan scsc oldscore pos : Int) (len : Nat) :
    scan ≤ (innerLoop I obuf nbuf lastoffset scan scsc oldscore pos len).scan ∧
      (scan < (nbuf.length : Int) → 0 ≤ oldscore →
        (innerLoop I obuf nbuf lastoffset scan scsc oldscore pos len).scan = scan →
        (innerLoop I obuf nbuf lastoffset scan scsc oldscore pos len).len ≠ 0) := by
  induction scan, scsc, oldscore, pos, len using innerLoop.induct I obuf nbuf lastoffset with
  | case1 scan scsc oldscore pos len h sr so hbrk =>
      rw [innerLoop, dif_pos h]
      simp only [hbrk, if_true]
      refine ⟨le_refl _, fun _ hos _ => ?_⟩
      show sr.2 ≠ 0
      have hso : oldscore ≤ so.2 :=
        scoreLoop_oldscore_ge obuf nbuf lastoffset scsc (scan + (sr.2 : Int)) oldscore
      rcases hbrk with ⟨_, hne⟩ | hgt
      · exact hne
      · omega
  | case2 scan scsc oldscore pos len h sr so hbrk ih =>
      have hso : so = scoreLoop obuf nbuf lastoffset scsc (scan + (sr.2 : Int)) oldscore := rfl
      have hsr : sr = search I obuf (sliceFromI nbuf scan) 0 obuf.length := rfl
      rw [innerLoop, dif_pos h]
      simp only [hbrk, if_false, dite_eq_ite]
      rw [hso, hsr] at ih
      obtain ⟨ih1, -⟩ := ih
      exact ⟨by omega, fun _ _ heq => by omega⟩
  | case3 scan scsc oldscore pos len h =>
      rw [innerLoop, dif_neg h]
      exact ⟨le_refl _, fun hN _ _ => absurd hN h⟩

/-- Decrease of the termination measure of `BSDiff`'s outer loop:
either `scan` advances, or a pending nonzero match length appears. -/
theorem measure_dec (N S X : Int) (L RL : Nat)
    (hs : S < N) (hge : S + (L : Int) ≤ X)
    (hstall : L = 0 → X = S → RL ≠ 0) :
    2 * (N - X).toNat + (if RL = 0 then 1 else 0) <
      2 * (N - S).toNat + (if L = 0 then 1 else 0) := by
  by_cases hX : X = S
  · subst hX
    rcases eq_or_ne L 0 with h0 | h0
    · have h2 := hstall h0 rfl
      simp [h0, h2]
    · exfalso
      omega
  · have hX1 : S + 1 ≤ X := by omega
    split <;> split <;> omega

/-- The outer loop of `BSDiff` (`for scan < len(nbuf)`): advance `scan`
by the pending match length, run the scan loop, and emit a control
triple when the loop stopped on a decisive break or at the end of
`nbuf`. -/
def diffLoop (I : List Int) (obuf nbuf : List Byte) (st : DiffState) :
    DiffState :=
  if hs : st.scan < (nbuf.length : Int) then
    let scan1 := st.scan + (st.len : Int)
    let r := innerLoop I obuf nbuf st.lastoffset scan1 scan1 0 st.pos st.len
    if (r.len : Int) ≠ r.oldscore ∨ r.scan = (nbuf.length : Int) then
      diffLoop I obuf nbuf
        { emitCtrl obuf nbuf st r.scan r.pos with
            scan := r.scan, len := r.len, pos := r.pos }
    else
      diffLoop I obuf nbuf
        { st with scan := r.scan, len := r.len, pos := r.pos }
  else st
termination_by
  2 * ((nbuf.length : Int) - st.scan).toNat + (if st.len = 0 then 1 else 0)
decreasing_by
  all_goals
    exact measure_dec (nbuf.length : Int) st.scan _ st.len _ hs
      (innerLoop_progress I obuf nbuf st.lastoffset (st.scan + (st.len : Int))
        (st.scan + (st.len : Int)) 0 st.pos st.len).1
      (fun hl hx =>
        (innerLoop_progress I obuf nbuf st.lastoffset (st.scan + (st.len : Int))
          (st.scan + (st.len : Int)) 0 st.pos st.len).2
          (by omega) (le_refl 0) (by omega))

/-- The full `BSDiff(old, new)` run: build the suffix array, run the
scan loop from the zero state, and collect the emitted triples and the
two data blocks. -/
def bsdiffRun (obuf nbuf : List Byte) : DiffState :=
  diffLoop (qsufsort obuf) obuf nbuf ⟨0, 0, 0, 0, 0, 0, [], [], []⟩

/-- The patch stream written by `BSDiff`: the control messages, the
`Add == -1` sentinel (a reset control message), the diff block and the
extra block. -/
def bsdiffStream (obuf nbuf : List Byte) : List PMsg :=
  ctrlMsgs (bsdiffRun obuf nbuf).ctrls ++
    [.ctrl (-1) 0 0, .diffData (bsdiffRun obuf nbuf).db,
      .extraData (bsdiffRun obuf nbuf).eb]

/-! ### Pointwise descriptions of the byte-buffer operations -/

theorem setByteI_length (l : List Byte) (i : Int) (v : Byte) :
    (setByteI l i v).length = l.length := by
  unfold setByteI; split <;> simp

theorem setByteI_getD (l : List Byte) (i : Int) (v : Byte) (j : Nat) :
    (setByteI l i v).getD j 0 =
      if (j : Int) = i ∧ j < l.length then v else l.getD j 0 := by
  unfold setByteI
  split
  · rename_i h0
    by_cases hj : (j : Int) = i ∧ j < l.length
    · have h1 : i.toNat = j := by omega
      simp [List.getD_eq_getElem?_getD, List.getElem?_set, h1, hj.2, hj]
    · rw [if_neg hj]
      rcases eq_or_ne i.toNat j with he | hne
      · have hj2 : ¬ j < l.length := fun hlt => hj ⟨by omega, hlt⟩
        simp [List.getD_eq_getElem?_getD, List.getElem?_set, he, hj2,
          List.getElem?_eq_none_iff.mpr (Nat.le_of_not_lt hj2)]
      · simp [List.getD_eq_getElem?_getD, List.getElem?_set, hne]
  · rename_i h0
    rw [if_neg (by omega)]

theorem copyBytes_length :
    ∀ (n : Nat) (dst : List Byte) (p : Int) (src : List Byte) (q : Int),
      (copyBytes dst p src q n).length = dst.length := by
  intro n
  induction n with
  | zero => intro dst p src q; rfl
  | succ n ih =>
      intro dst p src q
      rw [copyBytes, ih, setByteI_length]

theorem copyBytes_getD :
    ∀ (n : Nat) (dst : List Byte) (p : Int) (src : List Byte) (q : Int) (j : Nat),
      (copyBytes dst p src q n).getD j 0 =
        if p ≤ (j : Int) ∧ (j : Int) < p + n ∧ j < dst.length then
          byteAtI src (q + ((j : Int) - p))
        else dst.getD j 0 := by
  intro n
  induction n with
  | zero =>
      intro dst p src q j
      rw [if_neg (by omega)]
      rfl
  | succ n ih =>
      intro dst p src q j
      rw [copyBytes, ih, setByteI_length, setByteI_getD]
      by_cases h1 : p + 1 ≤ (j : Int) ∧ (j : Int) < p + 1 + n ∧ j < dst.length
      · rw [if_pos h1, if_pos (by omega)]
        congr 1
        omega
      · rw [if_neg h1]
        by_cases h2 : (j : Int) = p ∧ j < dst.length
        · rw [if_pos h2, if_pos (by omega)]
          have : q + ((j : Int) - p) = q := by omega
          rw [this]
        · rw [if_neg h2, if_neg (by omega)]

theorem addOldBytes_length :
    ∀ (n : Nat) (nb obuf : List Byte) (p op : Int),
      (addOldBytes nb obuf p op n).length = nb.length := by
  intro n
  induction n with
  | zero => intro nb obuf p op; rfl
  | succ n ih =>
      intro nb obuf p op
      rw [addOldBytes, ih, setByteI_length]

theorem addOldBytes_getD :
    ∀ (n : Nat) (nb obuf : List Byte) (p op : Int) (j : Nat),
      (addOldBytes nb obuf p op n).getD j 0 =
        if p ≤ (j : Int) ∧ (j : Int) < p + n ∧ j < nb.length then
          nb.getD j 0 + byteAtI obuf (op + ((j : Int) - p))
        else nb.getD j 0 := by
  intro n
  induction n with
  | zero =>
      intro nb obuf p op j
      rw [if_neg (by omega)]
      rfl
  | succ n ih =>
      intro nb obuf p op j
      rw [addOldBytes, ih, setByteI_length]
      by_cases hjp : (j : Int) = p ∧ j < nb.length
      · rw [if_neg (by omega), setByteI_getD, if_pos hjp, if_pos (by omega)]
        have hq : op + ((j : Int) - p) = op := by omega
        have hb : byteAtI nb p = nb.getD j 0 := by
          unfold byteAtI
          rw [if_pos (by omega)]
          congr 1
          omega
        rw [hq, hb]
      · by_cases h1 : p + 1 ≤ (j : Int) ∧ (j : Int) < p + 1 + n ∧ j < nb.length
        · rw [if_pos h1, setByteI_getD, if_neg hjp, if_pos (by omega)]
          congr 2
          omega
        · rw [if_neg h1, setByteI_getD, if_neg hjp, if_neg (by omega)]

theorem byteAtI_append_right (a b : List Byte) (i : Int)
    (h : (a.length : Int) ≤ i) :
    byteAtI (a ++ b) i = byteAtI b (i - a.length) := by
  unfold byteAtI
  rw [if_pos (by omega), if_pos (by omega)]
  rw [List.getD_eq_getElem?_getD, List.getD_eq_getElem?_getD,
    List.getElem?_append_right (by omega)]
  congr 2
  omega

theorem byteAtI_append_left (a b : List Byte) (i : Int)
    (h0 : 0 ≤ i) (h : i < (a.length : Int)) :
    byteAtI (a ++ b) i = byteAtI a i := by
  unfold byteAtI
  rw [if_pos h0, if_pos h0, List.getD_eq_getElem?_getD, List.getD_eq_getElem?_getD,
    List.getElem?_append]
  rw [if_pos (by omega)]

/-- The partially reconstructed output buffer of `BSPatch`: positions
below `k` already hold the target bytes, the rest are still zero. -/
def pbuf (nbuf : List Byte) (N : Nat) (k : Int) : List Byte :=
  (List.range N).map fun (j : Nat) =>
    if (j : Int) < k then byteAtI nbuf (j : Int) else 0

theorem pbuf_length (nbuf : List Byte) (N : Nat) (k : Int) :
    (pbuf nbuf N k).length = N := by
  unfold pbuf; simp

theorem pbuf_getD (nbuf : List Byte) (N : Nat) (k : Int) (j : Nat) :
    (pbuf nbuf N k).getD j 0 =
      if j < N ∧ (j : Int) < k then byteAtI nbuf j else 0 := by
  unfold pbuf
  rw [List.getD_eq_getElem?_getD, List.getElem?_map]
  by_cases hj : j < N
  · rw [List.getElem?_range hj]
    by_cases hk : (j : Int) < k
    · rw [if_pos ⟨hj, hk⟩]
      simp [hk]
    · rw [if_neg (fun hc => hk hc.2)]
      simp [hk]
  · have hnone : (List.range N)[j]? = none :=
      List.getElem?_eq_none_iff.mpr (by simpa using Nat.le_of_not_lt hj)
    rw [hnone, if_neg (fun hc => hj hc.1)]
    rfl

theorem pbuf_zero (nbuf : List Byte) (N : Nat) :
    List.replicate N (0 : Byte) = pbuf nbuf N 0 := by
  apply List.ext_getElem?
  intro n
  by_cases h : n < N
  · rw [List.getElem?_replicate, if_pos h]
    unfold pbuf
    rw [List.getElem?_map, List.getElem?_range h]
    simp only [Option.map_some']
    rw [if_neg (by omega)]
  · rw [List.getElem?_replicate, if_neg h]
    have : (pbuf nbuf N 0).length ≤ n := by rw [pbuf_length]; omega
    simp [List.getElem?_eq_none_iff.mpr this]

theorem pbuf_full (nbuf : List Byte) :
    pbuf nbuf nbuf.length nbuf.length = nbuf := by
  apply List.ext_getElem?
  intro n
  by_cases h : n < nbuf.length
  · unfold pbuf
    rw [List.getElem?_map, List.getElem?_range h]
    simp only [Option.map_some']
    rw [if_pos (by exact_mod_cast h), List.getElem?_eq_getElem h]
    congr 1
    unfold byteAtI
    rw [if_pos (by omega)]
    have ht : ((n : Int)).toNat = n := by omega
    rw [ht, List.getD_eq_getElem?_getD, List.getElem?_eq_getElem h]
    rfl
  · have h1 : (pbuf nbuf nbuf.length nbuf.length).length ≤ n := by
      rw [pbuf_length]; omega
    rw [List.getElem?_eq_none_iff.mpr h1,
      List.getElem?_eq_none_iff.mpr (by omega)]

/-- The triple loop splits over an append of triple lists. -/
theorem bspatchLoop_append (obuf : List Byte) (newSize : Int)
    (diff extra : List Byte) (cs1 cs2 : List Ctrl) (st : PatchState) :
    bspatchLoop obuf newSize diff extra (cs1 ++ cs2) st =
      (bspatchLoop obuf newSize diff extra cs1 st).bind
        (bspatchLoop obuf newSize diff extra cs2) := by
  induction cs1 generalizing st with
  | nil => rfl
  | cons c cs ih =>
      rw [List.cons_append]
      show bspatchLoop obuf newSize diff extra (c :: (cs ++ cs2)) st = _
      rw [bspatchLoop, bspatchLoop]
      split
      · rfl
      · dsimp only
        split
        · rfl
        · exact ih _

/-- Bounds on the forward extension: starting from a state whose best
length is within `[0, scan - lastscan]`, the result stays within it. -/
theorem extendForward_le (obuf nbuf : List Byte) (lastscan lastpos scan : Int)
    (i s Sf lenf : Int) (hi : 0 ≤ i) (hl : 0 ≤ lenf)
    (hu : lenf ≤ scan - lastscan) :
    0 ≤ extendForward obuf nbuf lastscan lastpos scan i s Sf lenf ∧
      extendForward obuf nbuf lastscan lastpos scan i s Sf lenf ≤
        scan - lastscan := by
  by_cases h : lastscan + i < scan ∧ lastpos + i < (obuf.length : Int)
  · rw [extendForward, dif_pos h]
    dsimp only
    by_cases hsc :
        (if (byteAtI obuf (lastpos + i) == byteAtI nbuf (lastscan + i)) =
            true then s + 1 else s) * 2 - (i + 1) > Sf * 2 - lenf
    · rw [if_pos hsc]
      exact extendForward_le obuf nbuf lastscan lastpos scan (i + 1) _ _ (i + 1)
        (by omega) (by omega) (by omega)
    · rw [if_neg hsc]
      exact extendForward_le obuf nbuf lastscan lastpos scan (i + 1) _ Sf lenf
        (by omega) hl hu
  · rw [extendForward, dif_neg h]
    exact ⟨hl, hu⟩
termination_by (scan - lastscan - i).toNat
decreasing_by all_goals omega

/-- Bounds on the backward extension. -/
theorem extendBackward_le (obuf nbuf : List Byte) (lastscan scan pos : Int) :
    ∀ (i s Sb lenb : Int), 0 ≤ i → 0 ≤ lenb → lenb ≤ scan - lastscan →
      0 ≤ extendBackward obuf nbuf lastscan scan pos i s Sb lenb ∧
        extendBackward obuf nbuf lastscan scan pos i s Sb lenb ≤
          scan - lastscan := by
  intro i s Sb lenb
  induction i, s, Sb, lenb using extendBackward.induct obuf nbuf lastscan scan pos with
  | case1 i s Sb lenb h s' p ih =>
      intro hi hl hu
      rw [extendBackward, dif_pos h]
      refine ih (by omega) ?_ ?_
      · show (0 : Int) ≤ if p then i else lenb
        split <;> omega
      · show (if p then i else lenb) ≤ scan - lastscan
        split <;> omega
  | case2 i s Sb lenb h =>
      intro hi hl hu
      rw [extendBackward, dif_neg h]
      exact ⟨hl, hu⟩

/-- Bounds on the overlap-resolution split point. -/
theorem overlapLoop_le (obuf nbuf : List Byte)
    (lastscan lastpos scan pos lenf lenb overlap : Int) :
    ∀ (i s Ss lens : Int), 0 ≤ i → 0 ≤ lens → lens ≤ overlap →
      0 ≤ overlapLoop obuf nbuf lastscan lastpos scan pos lenf lenb overlap
          i s Ss lens ∧
        overlapLoop obuf nbuf lastscan lastpos scan pos lenf lenb overlap
          i s Ss lens ≤ overlap := by
  intro i s Ss lens
  induction i, s, Ss, lens using
    overlapLoop.induct obuf nbuf lastscan lastpos scan pos lenf lenb overlap with
  | case1 i s Ss lens h s1 s2 p ih =>
      intro hi hl hu
      rw [overlapLoop, dif_pos h]
      refine ih (by omega) ?_ ?_
      · show (0 : Int) ≤ if p then i + 1 else lens
        split <;> omega
      · show (if p then i + 1 else lens) ≤ overlap
        split <;> omega
  | case2 i s Ss lens h =>
      intro hi hl hu
      rw [overlapLoop, dif_neg h]
      exact ⟨hl, hu⟩

/-- Bounds on the resolved `(lenf, lenb)` of one emit step: both are
nonnegative and together they do not overshoot `[lastscan, scan]`. -/
theorem emitParts_bounds (obuf nbuf : List Byte)
    (lastscan lastpos scan pos : Int) (h : lastscan ≤ scan) :
    0 ≤ (emitParts obuf nbuf lastscan lastpos scan pos).1 ∧
      0 ≤ (emitParts obuf nbuf lastscan lastpos scan pos).2 ∧
      lastscan + (emitParts obuf nbuf lastscan lastpos scan pos).1 ≤
        scan - (emitParts obuf nbuf lastscan lastpos scan pos).2 := by
  have hf := extendForward_le obuf nbuf lastscan lastpos scan 0 0 0 0
    (le_refl 0) (le_refl 0) (by omega)
  unfold emitParts
  dsimp only
  by_cases hN : scan < (nbuf.length : Int)
  · rw [if_pos hN]
    have hb := extendBackward_le obuf nbuf lastscan scan pos 1 0 0 0
      (by omega) (le_refl 0) (by omega)
    by_cases hov :
        lastscan + extendForward obuf nbuf lastscan lastpos scan 0 0 0 0 >
          scan - extendBackward obuf nbuf lastscan scan pos 1 0 0 0
    · rw [if_pos hov]
      have ho := overlapLoop_le obuf nbuf lastscan lastpos scan pos
        (extendForward obuf nbuf lastscan lastpos scan 0 0 0 0)
        (extendBackward obuf nbuf lastscan scan pos 1 0 0 0)
        (lastscan + extendForward obuf nbuf lastscan lastpos scan 0 0 0 0 -
          (scan - extendBackward obuf nbuf lastscan scan pos 1 0 0 0))
        0 0 0 0 (le_refl 0) (le_refl 0) (by omega)
      refine ⟨?_, ?_, ?_⟩ <;> dsimp only <;> omega
    · rw [if_neg hov]
      exact ⟨hf.1, hb.1, by omega⟩
  · rw [if_neg hN]
    by_cases hov :
        lastscan + extendForward obuf nbuf lastscan lastpos scan 0 0 0 0 >
          scan - 0
    · rw [if_pos hov]
      have ho := overlapLoop_le obuf nbuf lastscan lastpos scan pos
        (extendForward obuf nbuf lastscan lastpos scan 0 0 0 0) 0
        (lastscan + extendForward obuf nbuf lastscan lastpos scan 0 0 0 0 -
          (scan - 0))
        0 0 0 0 (le_refl 0) (le_refl 0) (by omega)
      refine ⟨?_, ?_, ?_⟩ <;> dsimp only <;> omega
    · rw [if_neg hov]
      exact ⟨hf.1, le_refl 0, by omega⟩

/-- A common prefix is no longer than the second buffer. -/
theorem matchlen_le (a b : List Byte) : matchlen a b ≤ b.length := by
  induction b generalizing a with
  | nil => cases a <;> simp [matchlen]
  | cons x xs ih =>
      cases a with
      | nil => simp [matchlen]
      | cons y ys =>
          rw [matchlen]
          split
          · exact Nat.succ_le_succ (ih ys)
          · simp

/-- The match length returned by `search` is no longer than `nbuf`. -/
theorem search_len_le (I : List Int) (obuf nbuf : List Byte) (st en : Nat) :
    (search I obuf nbuf st en).2 ≤ nbuf.length := by
  rw [search]
  split
  · dsimp only
    split
    · exact matchlen_le _ _
    · exact matchlen_le _ _
  · dsimp only
    split
    · exact search_len_le I obuf nbuf _ en
    · exact search_len_le I obuf nbuf st _
termination_by en - st
decreasing_by
  · have : (en - st) / 2 < en - st := Nat.div_lt_self (by omega) (by omega)
    omega
  · have : (en - st) / 2 < en - st := Nat.div_lt_self (by omega) (by omega)
    omega

/-- The scan loop keeps `scan` within `nbuf`, and on a stop below the
end of `nbuf` its match length fits in the remaining buffer. -/
theorem innerLoop_le (I : List Int) (obuf nbuf : List Byte)
    (lastoffset scan scsc oldscore pos : Int) (len : Nat)
    (hs : scan ≤ (nbuf.length : Int)) :
    (innerLoop I obuf nbuf lastoffset scan scsc oldscore pos len).scan ≤
        (nbuf.length : Int) ∧
      ((innerLoop I obuf nbuf lastoffset scan scsc oldscore pos len).scan <
          (nbuf.length : Int) →
        ((innerLoop I obuf nbuf lastoffset scan scsc oldscore pos len).len : Int) ≤
          (nbuf.length : Int) -
            (innerLoop I obuf nbuf lastoffset scan scsc oldscore pos len).scan) := by
  rw [innerLoop]
  split
  · dsimp only
    split
    · dsimp only
      rename_i hlt _
      refine ⟨le_of_lt hlt, fun _ => ?_⟩
      have h1 := search_len_le I obuf (sliceFromI nbuf scan) 0 obuf.length
      have h2 : (sliceFromI nbuf scan).length = nbuf.length - scan.toNat := by
        unfold sliceFromI
        simp
      omega
    · rename_i hlt _
      exact innerLoop_le I obuf nbuf lastoffset (scan + 1) _ _ _ _ (by omega)
  · dsimp only
    rename_i hge
    exact ⟨hs, fun hlt => absurd hlt hge⟩
termination_by ((nbuf.length : Int) - scan).toNat
decreasing_by omega

/-- Two byte lists of the same length with the same defaulted reads are
equal. -/
theorem list_eq_of_getD (l1 l2 : List Byte) (hlen : l1.length = l2.length)
    (h : ∀ j : Nat, l1.getD j 0 = l2.getD j 0) : l1 = l2 := by
  apply List.ext_getElem?
  intro n
  by_cases hn : n < l1.length
  · rw [List.getElem?_eq_getElem hn, List.getElem?_eq_getElem (hlen ▸ hn)]
    have := h n
    rw [List.getD_eq_getElem?_getD, List.getD_eq_getElem?_getD,
      List.getElem?_eq_getElem hn, List.getElem?_eq_getElem (hlen ▸ hn)] at this
    simpa using this
  · rw [List.getElem?_eq_none_iff.mpr (by omega),
      List.getElem?_eq_none_iff.mpr (by omega)]

/-- Reading the middle list of a three-way append at an offset into it. -/
theorem byteAtI_mid (a b c : List Byte) (t : Int) (h0 : 0 ≤ t)
    (h1 : t < (b.length : Int)) :
    byteAtI (a ++ b ++ c) ((a.length : Int) + t) = byteAtI b t := by
  rw [byteAtI_append_left _ _ _ (by omega) (by rw [List.length_append]; push_cast; omega),
    byteAtI_append_right _ _ _ (by omega)]
  congr 1
  ring

/-- `byteAtI` at a nonnegative index is a defaulted `getD`. -/
theorem byteAtI_nonneg (l : List Byte) (t : Int) (h : 0 ≤ t) :
    byteAtI l t = l.getD t.toNat 0 := by
  unfold byteAtI
  rw [if_pos h]

/-- Applying one control triple of the kind `BSDiff` emits — `add` bytes
of wrapped diffs against `obuf`, then `copy` fresh bytes — extends the
partially reconstructed buffer from `lastscan` to
`lastscan + add + copy`. -/
theorem bspatch_step (obuf nbuf : List Byte)
    (D dNew dX E eNew eX : List Byte)
    (lastscan lastpos lenf copyLen seek : Int)
    (hLs : 0 ≤ lastscan) (hLf : 0 ≤ lenf) (hCp : 0 ≤ copyLen)
    (hUp : lastscan + lenf + copyLen ≤ (nbuf.length : Int))
    (hDlen : dNew.length = lenf.toNat)
    (hElen : eNew.length = copyLen.toNat)
    (hDval : ∀ k : Nat, k < lenf.toNat →
      dNew.getD k 0 =
        byteAtI nbuf (lastscan + (k : Int)) - byteAtI obuf (lastpos + (k : Int)))
    (hEval : ∀ k : Nat, k < copyLen.toNat →
      eNew.getD k 0 = byteAtI nbuf (lastscan + lenf + (k : Int))) :
    bspatchLoop obuf (nbuf.length : Int) (D ++ dNew ++ dX) (E ++ eNew ++ eX)
      [⟨lenf, copyLen, seek⟩]
      ⟨pbuf nbuf nbuf.length lastscan, lastpos, lastscan,
        (D.length : Int), (E.length : Int)⟩ =
      .ok ⟨pbuf nbuf nbuf.length (lastscan + lenf + copyLen),
        lastpos + lenf + seek, lastscan + lenf + copyLen,
        (D.length : Int) + lenf, (E.length : Int) + copyLen⟩ := by
  rw [bspatchLoop]
  dsimp only
  rw [if_neg (by omega), if_neg (by omega)]
  rw [bspatchLoop]
  congr 1
  congr 1
  apply list_eq_of_getD
  · rw [copyBytes_length, addOldBytes_length, copyBytes_length, pbuf_length,
      pbuf_length]
  intro j
  simp only [copyBytes_getD, addOldBytes_getD, copyBytes_length,
    addOldBytes_length, pbuf_length, pbuf_getD]
  by_cases hA : lastscan + lenf ≤ (j : Int) ∧
      (j : Int) < lastscan + lenf + (copyLen.toNat : Int) ∧ j < nbuf.length
  · rw [if_pos hA, if_pos (by omega)]
    rw [byteAtI_mid E eNew eX ((j : Int) - (lastscan + lenf)) (by omega)
      (by omega), byteAtI_nonneg _ _ (by omega), hEval _ (by omega)]
    congr 1
    omega
  · rw [if_neg hA]
    by_cases hB : lastscan ≤ (j : Int) ∧
        (j : Int) < lastscan + (lenf.toNat : Int) ∧ j < nbuf.length
    · rw [if_pos hB, if_pos hB, if_pos (by omega)]
      rw [byteAtI_mid D dNew dX ((j : Int) - lastscan) (by omega) (by omega),
        byteAtI_nonneg _ _ (by omega), hDval _ (by omega)]
      have hk : ((((j : Int) - lastscan)).toNat : Int) = (j : Int) - lastscan := by
        omega
      rw [hk]
      rw [sub_add_cancel]
      congr 1
      omega
    · rw [if_neg hB, if_neg hB]
      by_cases hP : j < nbuf.length ∧ (j : Int) < lastscan
      · rw [if_pos hP, if_pos (by omega)]
      · rw [if_neg hP, if_neg (by omega)]

/-- Reading a tabulated list. -/
theorem getD_map_range (n : Nat) (f : Nat → Byte) (k : Nat) (h : k < n) :
    ((List.range n).map f).getD k 0 = f k := by
  rw [List.getD_eq_getElem?_getD, List.getElem?_map, List.getElem?_range h]
  rfl

/-- When the emit happens at the very end of `nbuf`, the backward
extension is empty. -/
theorem emitParts_snd_zero (obuf nbuf : List Byte)
    (lastscan lastpos scan pos : Int)
    (h1 : lastscan ≤ scan) (h2 : ¬ scan < (nbuf.length : Int)) :
    (emitParts obuf nbuf lastscan lastpos scan pos).2 = 0 := by
  have hf := extendForward_le obuf nbuf lastscan lastpos scan 0 0 0 0
    (le_refl 0) (le_refl 0) (by omega)
  unfold emitParts
  dsimp only
  rw [if_neg h2, if_neg (by omega)]

/-- The loop invariant of `BSDiff`'s outer loop: the cursors are in
range, and applying the triples emitted so far (with their diff and
extra bytes, arbitrarily extended) reconstructs exactly the prefix of
`nbuf` below `lastscan`, leaving the patch cursors at
`(lastpos, lastscan)` and the data offsets at the block lengths. -/
def DiffInv (obuf nbuf : List Byte) (st : DiffState) : Prop :=
  0 ≤ st.lastscan ∧
  st.lastscan ≤ st.scan ∧
  st.scan ≤ (nbuf.length : Int) ∧
  (st.scan < (nbuf.length : Int) →
    st.scan + (st.len : Int) ≤ (nbuf.length : Int)) ∧
  (st.scan < (nbuf.length : Int) ∨ st.lastscan = (nbuf.length : Int)) ∧
  (∀ c ∈ st.ctrls, c.add ≠ -1) ∧
  ∀ dX eX : List Byte,
    bspatchLoop obuf (nbuf.length : Int) (st.db ++ dX) (st.eb ++ eX) st.ctrls
      ⟨pbuf nbuf nbuf.length 0, 0, 0, 0, 0⟩ =
      .ok ⟨pbuf nbuf nbuf.length st.lastscan, st.lastpos, st.lastscan,
        (st.db.length : Int), (st.eb.length : Int)⟩

/-- `DiffInv` is preserved by `BSDiff`'s outer loop, which moreover runs
until `scan` covers all of `nbuf`. -/
theorem diffLoop_correct (I : List Int) (obuf nbuf : List Byte) (st : DiffState)
    (inv : DiffInv obuf nbuf st) :
    DiffInv obuf nbuf (diffLoop I obuf nbuf st) ∧
      ¬ (diffLoop I obuf nbuf st).scan < (nbuf.length : Int) := by
  obtain ⟨i1, i2, i3, i4, i5, i6, i7⟩ := inv
  rw [diffLoop]
  split
  · rename_i hs
    dsimp only
    have hprog := (innerLoop_progress I obuf nbuf st.lastoffset
      (st.scan + (st.len : Int)) (st.scan + (st.len : Int)) 0 st.pos st.len).1
    have hloop := innerLoop_le I obuf nbuf st.lastoffset
      (st.scan + (st.len : Int)) (st.scan + (st.len : Int)) 0 st.pos st.len
      (i4 hs)
    split
    · rename_i hemit
      refine diffLoop_correct I obuf nbuf _ ?_
      have hem := emitParts_bounds obuf nbuf st.lastscan st.lastpos
        (innerLoop I obuf nbuf st.lastoffset (st.scan + (st.len : Int))
          (st.scan + (st.len : Int)) 0 st.pos st.len).scan
        (innerLoop I obuf nbuf st.lastoffset (st.scan + (st.len : Int))
          (st.scan + (st.len : Int)) 0 st.pos st.len).pos
        (by omega)
      unfold DiffInv
      dsimp only [emitCtrl]
      refine ⟨by omega, by omega, hloop.1,
        fun h => by have h2 := hloop.2 h; omega, ?_, ?_, ?_⟩
      · by_cases hR : (innerLoop I obuf nbuf st.lastoffset
            (st.scan + (st.len : Int)) (st.scan + (st.len : Int)) 0 st.pos
            st.len).scan < (nbuf.length : Int)
        · exact Or.inl hR
        · refine Or.inr ?_
          have hz := emitParts_snd_zero obuf nbuf st.lastscan st.lastpos
            (innerLoop I obuf nbuf st.lastoffset (st.scan + (st.len : Int))
              (st.scan + (st.len : Int)) 0 st.pos st.len).scan
            (innerLoop I obuf nbuf st.lastoffset (st.scan + (st.len : Int))
              (st.scan + (st.len : Int)) 0 st.pos st.len).pos
            (by omega) hR
          omega
      · intro c hc
        rcases List.mem_append.mp hc with hold | hnew
        · exact i6 c hold
        · have : c = ⟨(emitParts obuf nbuf st.lastscan st.lastpos
              (innerLoop I obuf nbuf st.lastoffset (st.scan + (st.len : Int))
                (st.scan + (st.len : Int)) 0 st.pos st.len).scan
              (innerLoop I obuf nbuf st.lastoffset (st.scan + (st.len : Int))
                (st.scan + (st.len : Int)) 0 st.pos st.len).pos).1, _, _⟩ :=
            List.mem_singleton.mp hnew
          rw [this]
          show (emitParts obuf nbuf st.lastscan st.lastpos _ _).1 ≠ -1
          omega
      · intro dX eX
        rw [List.append_assoc st.db, List.append_assoc st.eb,
          bspatchLoop_append, i7]
        show bspatchLoop obuf (nbuf.length : Int) (st.db ++ (_ ++ dX))
          (st.eb ++ (_ ++ eX)) _ _ = _
        rw [← List.append_assoc st.db, ← List.append_assoc st.eb]
        refine Eq.trans (bspatch_step obuf nbuf st.db _ dX st.eb _ eX
          st.lastscan st.lastpos _ _ _ i1 hem.1 (by omega) (by omega)
          (by simp) (by simp)
          (fun k hk => getD_map_range _ _ k hk)
          (fun k hk => getD_map_range _ _ k hk)) ?_
        congr 1
        congr 1
        · congr 1
          ring
        · ring
        · ring
        · rw [List.length_append, List.length_map, List.length_range]
          push_cast [Int.toNat_of_nonneg hem.1]
          ring
        · rw [List.length_append, List.length_map, List.length_range]
          have h2 : (0 : Int) ≤ (innerLoop I obuf nbuf st.lastoffset
              (st.scan + (st.len : Int)) (st.scan + (st.len : Int)) 0 st.pos
              st.len).scan -
              (emitParts obuf nbuf st.lastscan st.lastpos
                (innerLoop I obuf nbuf st.lastoffset (st.scan + (st.len : Int))
                  (st.scan + (st.len : Int)) 0 st.pos st.len).scan
                (innerLoop I obuf nbuf st.lastoffset (st.scan + (st.len : Int))
                  (st.scan + (st.len : Int)) 0 st.pos st.len).pos).2 -
              (st.lastscan +
                (emitParts obuf nbuf st.lastscan st.lastpos
                  (innerLoop I obuf nbuf st.lastoffset (st.scan + (st.len : Int))
                    (st.scan + (st.len : Int)) 0 st.pos st.len).scan
                  (innerLoop I obuf nbuf st.lastoffset (st.scan + (st.len : Int))
                    (st.scan + (st.len : Int)) 0 st.pos st.len).pos).1) := by
            omega
          push_cast [Int.toNat_of_nonneg h2]
          ring
    · rename_i hnoemit
      refine diffLoop_correct I obuf nbuf _ ?_
      have hne : (innerLoop I obuf nbuf st.lastoffset (st.scan + (st.len : Int))
          (st.scan + (st.len : Int)) 0 st.pos st.len).scan ≠
          (nbuf.length : Int) := fun he => hnoemit (Or.inr he)
      unfold DiffInv
      dsimp only
      exact ⟨i1, by omega, hloop.1,
        fun h => by have h2 := hloop.2 h; omega, by omega, i6, i7⟩
  · rename_i hge
    exact ⟨⟨i1, i2, i3, i4, i5, i6, i7⟩, hge⟩
termination_by
  2 * ((nbuf.length : Int) - st.scan).toNat + (if st.len = 0 then 1 else 0)
decreasing_by
  all_goals
    exact measure_dec (nbuf.length : Int) st.scan _ st.len _
      ‹st.scan < (nbuf.length : Int)›
      (innerLoop_progress I obuf nbuf st.lastoffset (st.scan + (st.len : Int))
        (st.scan + (st.len : Int)) 0 st.pos st.len).1
      (fun hl hx =>
        (innerLoop_progress I obuf nbuf st.lastoffset (st.scan + (st.len : Int))
          (st.scan + (st.len : Int)) 0 st.pos st.len).2
          (by omega) (le_refl 0) (by omega))

/-- C1: for every pair of byte buffers `old` and `new` (both possibly
empty), applying the patch produced by `BSDiff(old, new)` to `old` with
declared new size `len(new)` reconstructs `new` exactly. -/
theorem bsdiff_bspatch_roundtrip (obuf nbuf : List Byte) :
    bspatch obuf (nbuf.length : Int) (bsdiffStream obuf nbuf) = .ok nbuf := by
  have h0 : DiffInv obuf nbuf ⟨0, 0, 0, 0, 0, 0, [], [], []⟩ := by
    unfold DiffInv
    dsimp only
    refine ⟨le_refl 0, le_refl 0, by omega, by omega, by omega, by simp, ?_⟩
    intro dX eX
    rw [bspatchLoop]
    simp
  obtain ⟨⟨f1, f2, f3, f4, f5, f6, f7⟩, hscan⟩ :=
    diffLoop_correct (qsufsort obuf) obuf nbuf ⟨0, 0, 0, 0, 0, 0, [], [], []⟩ h0
  have hlast : (diffLoop (qsufsort obuf) obuf nbuf
      ⟨0, 0, 0, 0, 0, 0, [], [], []⟩).lastscan = (nbuf.length : Int) := by
    rcases f5 with h | h
    · exact absurd h hscan
    · exact h
  unfold bspatch bsdiffStream bsdiffRun
  rw [readCtrls_encode _ _ f6]
  show (bspatchLoop obuf (nbuf.length : Int)
      (diffLoop (qsufsort obuf) obuf nbuf ⟨0, 0, 0, 0, 0, 0, [], [], []⟩).db
      (diffLoop (qsufsort obuf) obuf nbuf ⟨0, 0, 0, 0, 0, 0, [], [], []⟩).eb
      (diffLoop (qsufsort obuf) obuf nbuf ⟨0, 0, 0, 0, 0, 0, [], [], []⟩).ctrls
      ⟨List.replicate ((nbuf.length : Int)).toNat 0, 0, 0, 0, 0⟩).map (·.nbuf) =
    .ok nbuf
  have htn : ((nbuf.length : Int)).toNat = nbuf.length := by omega
  rw [htn, pbuf_zero nbuf nbuf.length]
  have h7 := f7 [] []
  rw [List.append_nil, List.append_nil] at h7
  rw [h7]
  show Except.ok (pbuf nbuf nbuf.length
    (diffLoop (qsufsort obuf) obuf nbuf ⟨0, 0, 0, 0, 0, 0, [], [], []⟩).lastscan) =
    Except.ok nbuf
  rw [hlast]
  exact congrArg Except.ok (pbuf_full nbuf)

set_option maxRecDepth 100000

/-- C6: for the empty old buffer, `qsufsort` terminates — its
depth-doubling loop stops before consuming any fuel, whatever fuel it
is given, because `I[0] = -(len+1)` already holds — and returns the
single-element suffix array `[0]` containing only the sentinel
position `0 = len(old)`. -/
theorem qsufsort_empty :
    qsufsort [] = [0] ∧
      ∀ fuel : Nat,
        qsHLoop 1 fuel 1 (qsInit []).1 (qsInit []).2 =
          ((qsInit []).1, (qsInit []).2) := by
  constructor
  · decide
  · intro fuel
    cases fuel with
    | zero => rfl
    | succ n =>
        rw [qsHLoop, if_pos (by decide)]

set_option maxHeartbeats 4000000

instance : DecidableEq (Except BSErr (List Byte)) := fun a b =>
  match a, b with
  | .ok x, .ok y =>
      if h : x = y then .isTrue (by rw [h]) else .isFalse (by simp [h])
  | .error x, .error y =>
      if h : x = y then .isTrue (by rw [h]) else .isFalse (by simp [h])
  | .ok _, .error _ => .isFalse (by simp)
  | .error _, .ok _ => .isFalse (by simp)

section ConcreteEvaluation

attribute [local semireducible] diffLoop innerLoop search scoreLoop
  extendForward extendBackward overlapLoop

/-- C8 counterexample: on `old = "abcdefgh"`, `new = "abcXefgh"`,
`BSDiff` emits exactly one non-sentinel control triple — but its `Seek`
field is `-4` (computed as `(pos-lenb)-(lastpos+lenf) = 4 - 8` from the
stale match position `pos = 4` of the last search), not `0` as claimed. -/
theorem bsdiff_concrete_seek_counterexample :
    (bsdiffRun [97, 98, 99, 100, 101, 102, 103, 104]
        [97, 98, 99, 88, 101, 102, 103, 104]).ctrls = [⟨8, 0, -4⟩] ∧
      ([⟨8, 0, -4⟩] : List Ctrl) ≠ [⟨8, 0, 0⟩] := by
  constructor
  · decide
  · decide

/-- C8 (amended): on `old = "abcdefgh"`, `new = "abcXefgh"`, `BSDiff`
emits exactly one non-sentinel control triple, with `Add = 8`,
`Copy = 0` and `Seek = -4`; the add-data block is 8 bytes, all zero
except position 3, which holds `'X' - 'd' (mod 256) = 244`; the
extra-data block is empty; and applying this patch to `old` with
declared size `8 = len(new)` reproduces `new`. -/
theorem bsdiff_concrete_scenario :
    (bsdiffRun [97, 98, 99, 100, 101, 102, 103, 104]
        [97, 98, 99, 88, 101, 102, 103, 104]).ctrls = [⟨8, 0, -4⟩] ∧
      (bsdiffRun [97, 98, 99, 100, 101, 102, 103, 104]
        [97, 98, 99, 88, 101, 102, 103, 104]).db =
        [0, 0, 0, 244, 0, 0, 0, 0] ∧
      (bsdiffRun [97, 98, 99, 100, 101, 102, 103, 104]
        [97, 98, 99, 88, 101, 102, 103, 104]).eb = [] ∧
      bspatch [97, 98, 99, 100, 101, 102, 103, 104] 8
        (bsdiffStream [97, 98, 99, 100, 101, 102, 103, 104]
          [97, 98, 99, 88, 101, 102, 103, 104]) =
        .ok [97, 98, 99, 88, 101, 102, 103, 104] := by
  refine ⟨by decide, by decide, by decide, by decide⟩

end ConcreteEvaluation

/-! ## The patch-stream probe (`analyzeRsync`, `analyzeBsdiff`,
`skipSeries`)

The probe walks the same typed message stream; its errors (read
failures, unknown series types, missing terminal ops) are collapsed to
a single error value. -/

/-- `pwr.SyncOp_Type`: the recognized op types plus anything else. -/
inductive SyncOpType where
  | blockRange
  | data
  | heyYouDidIt
  | unknown
deriving DecidableEq, Repr

/-- `pwr.SyncHeader_Type`: the recognized series types plus anything
else. -/
inductive SeriesType where
  | rsync
  | bsdiff
  | other
deriving DecidableEq, Repr

/-- A `pwr.SyncOp` message. -/
structure SyncOp where
  ty : SyncOpType
  fileIndex : Int
  blockIndex : Int
  blockSpan : Int
  data : List Byte
deriving DecidableEq, Repr

/-- A `bsdiff.Control` message of the probe's stream format
(add/copy byte blocks, a seek, and an end-of-series flag). -/
structure BsControl where
  add : List Byte
  copy : List Byte
  seek : Int
  eof : Bool
deriving DecidableEq, Repr

/-- The messages a patch-stream series is made of. -/
inductive PbMsg where
  | syncHeader (ty : SeriesType) (fileIndex : Int)
  | syncOp (op : SyncOp)
  | bsdiffHeader (targetIndex : Int)
  | bsControl (c : BsControl)
deriving DecidableEq, Repr

/-- The rsync-series loop of `analyzeRsync`: read ops until
`HEY_YOU_DID_IT`, collecting the referenced target block ranges. -/
def analyzeRsyncOps (acc : List (Int × Int)) :
    List PbMsg → Except Unit (List (Int × Int) × List PbMsg)
  | .syncOp op :: rest =>
      match op.ty with
      | .heyYouDidIt => .ok (acc, rest)
      | .blockRange =>
          analyzeRsyncOps (acc ++ [(op.fileIndex, op.blockSpan)]) rest
      | _ => analyzeRsyncOps acc rest
  | _ => .error ()

/-- The cursor state tracked by `analyzeBsdiff`. -/
structure ProbeSt where
  oldpos : Int
  newpos : Int
  pristine : Int
  bestUnchanged : Int
deriving DecidableEq, Repr

/-- The per-add-byte loop of `analyzeBsdiff` when the cursors agree:
count unchanged (zero-diff) bytes. -/
def analyzeAddBytes : List Byte → Int → Int → Int → Int →
    Int × Int × Int × Int
  | [], o, n, u, b => (o, n, u, b)
  | x :: xs, o, n, u, b =>
      if x = 0 then analyzeAddBytes xs (o + 1) (n + 1) (u + 1) (b + 1)
      else analyzeAddBytes xs (o + 1) (n + 1) u 0

/-- The control loop of `analyzeBsdiff`: read `bsdiff.Control` messages
until `Eof`, tracking the cursors and the pristine-byte count. -/
def analyzeBsControls : List PbMsg → ProbeSt →
    Except Unit (ProbeSt × List PbMsg)
  | .bsControl c :: rest, st =>
      if c.eof then .ok (st, rest)
      else
        let s1 :=
          if 0 < c.add.length then
            if st.oldpos = st.newpos then
              let r := analyzeAddBytes c.add st.oldpos st.newpos 0
                st.bestUnchanged
              (⟨r.1, r.2.1, st.pristine + r.2.2.1, r.2.2.2⟩ : ProbeSt)
            else
              ⟨st.oldpos + c.add.length, st.newpos + c.add.length,
                st.pristine, st.bestUnchanged⟩
          else st
        let s2 :=
          if 0 < c.copy.length then
            (⟨s1.oldpos, s1.newpos + c.copy.length, s1.pristine, 0⟩ : ProbeSt)
          else s1
        analyzeBsControls rest ⟨s2.oldpos + c.seek, s2.newpos, s2.pristine,
          s2.bestUnchanged⟩
  | _, _ => .error ()

/-- `analyzeBsdiff`: read the `BsdiffHeader`, the control stream up to
`Eof`, then require exactly one `HEY_YOU_DID_IT` `SyncOp`; any other op
type is a fatal error. -/
def analyzeBsdiff (s : List PbMsg) :
    Except Unit ((Int × ProbeSt) × List PbMsg) :=
  match s with
  | .bsdiffHeader t :: rest => do
      let (st, r1) ← analyzeBsControls rest ⟨0, 0, 0, 0⟩
      match r1 with
      | .syncOp op :: r2 =>
          if op.ty = .heyYouDidIt then .ok ((t, st), r2) else .error ()
      | _ => .error ()
  | _ => .error ()

/-- The rsync loop of `skipSeries`: read ops until `HEY_YOU_DID_IT`. -/
def skipRsyncOps : List PbMsg → Except Unit (List PbMsg)
  | .syncOp op :: rest =>
      if op.ty = .heyYouDidIt then .ok rest else skipRsyncOps rest
  | _ => .error ()

/-- The bsdiff-control loop of `skipSeries`: read controls until
`Eof`. -/
def skipBsControls : List PbMsg → Except Unit (List PbMsg)
  | .bsControl c :: rest => if c.eof then .ok rest else skipBsControls rest
  | _ => .error ()

/-- `skipSeries`: consume one series without interpreting it; a bsdiff
series must still end with the `Eof` control and a `HEY_YOU_DID_IT`
op. -/
def skipSeries (ty : SeriesType) (s : List PbMsg) :
    Except Unit (List PbMsg) :=
  match ty with
  | .rsync => skipRsyncOps s
  | .bsdiff =>
      match s with
      | .bsdiffHeader _ :: rest => do
          let r1 ← skipBsControls rest
          match r1 with
          | .syncOp op :: r2 =>
              if op.ty = .heyYouDidIt then .ok r2 else .error ()
          | _ => .error ()
      | _ => .error ()
  | .other => .error ()

/-- `analyzeSeries` (the dispatch of `deepDiveContext.analyzeSeries`),
projected onto the stream cursor it leaves behind. -/
def analyzeSeriesRest (ty : SeriesType) (s : List PbMsg) :
    Except Unit (List PbMsg) :=
  match ty with
  | .rsync => (analyzeRsyncOps [] s).map (·.2)
  | .bsdiff => (analyzeBsdiff s).map (·.2)
  | .other => .error ()

/-- Monadic bind on a successful `Except` computation reduces. -/
theorem exc_bind_ok {e a b : Type} (x : a) (f : a -> Except e b) :
    (do let y <- Except.ok x; f y) = f x := rfl

/-- Monadic bind on a failed `Except` computation propagates the
error. -/
theorem exc_bind_error {e a b : Type} (err : e) (f : a -> Except e b) :
    (do let y <- (Except.error err : Except e a); f y) =
      Except.error err := rfl

/-- The rsync analysis loop consumes exactly what the skip loop
consumes, and fails exactly when it fails. -/
theorem analyzeRsyncOps_rest (s : List PbMsg) :
    ∀ acc, (analyzeRsyncOps acc s).map (·.2) = skipRsyncOps s := by
  induction s with
  | nil => intro acc; rfl
  | cons m rest ih =>
      intro acc
      cases m with
      | syncOp op =>
          cases hty : op.ty
          case heyYouDidIt =>
            simp [analyzeRsyncOps, skipRsyncOps, hty, Except.map]
          all_goals simp [analyzeRsyncOps, skipRsyncOps, hty, ih]
      | syncHeader ty fi => rfl
      | bsdiffHeader t => rfl
      | bsControl c => rfl

/-- The bsdiff-control analysis loop consumes exactly what the skip
loop consumes, and fails exactly when it fails. -/
theorem analyzeBsControls_rest (s : List PbMsg) :
    ∀ st, (analyzeBsControls s st).map (·.2) = skipBsControls s := by
  induction s with
  | nil => intro st; rfl
  | cons m rest ih =>
      intro st
      cases m with
      | bsControl c =>
          by_cases he : c.eof = true
          · simp [analyzeBsControls, skipBsControls, he, Except.map]
          · simp only [Bool.not_eq_true] at he
            simp [analyzeBsControls, skipBsControls, he, ih]
      | syncHeader ty fi => rfl
      | bsdiffHeader t => rfl
      | syncOp op => rfl

/-- C9: skipping a series consumes exactly the same sequence of
messages — leaving the stream cursor at exactly the same position, and
failing in exactly the same cases — as fully parsing and interpreting
it, for both RSYNC and BSDIFF series; hence parse-then-skip over any
mix of series kinds preserves cursor alignment for every following
series. -/
theorem skipSeries_eq_analyzeSeries (ty : SeriesType) (s : List PbMsg) :
    skipSeries ty s = analyzeSeriesRest ty s := by
  cases ty with
  | rsync => exact (analyzeRsyncOps_rest s []).symm
  | other => rfl
  | bsdiff =>
      unfold skipSeries analyzeSeriesRest analyzeBsdiff
      cases s with
      | nil => rfl
      | cons m rest =>
          cases m with
          | syncHeader ty fi => rfl
          | syncOp op => rfl
          | bsControl c => rfl
          | bsdiffHeader t =>
              dsimp only
              have heq := analyzeBsControls_rest rest ⟨0, 0, 0, 0⟩
              cases hab : analyzeBsControls rest ⟨0, 0, 0, 0⟩ with
              | error e =>
                  rw [hab] at heq
                  simp only [Except.map] at heq
                  rw [← heq]
                  rfl
              | ok p =>
                  rw [hab] at heq
                  simp only [Except.map] at heq
                  rw [← heq]
                  obtain ⟨st, r1⟩ := p
                  simp only [exc_bind_ok]
                  cases r1 with
                  | nil => rfl
                  | cons m2 r2 =>
                      cases m2 with
                      | syncOp op2 =>
                          dsimp only
                          by_cases hty : op2.ty = .heyYouDidIt <;>
                            simp [hty, Except.map]
                      | syncHeader ty2 fi2 => rfl
                      | bsdiffHeader t2 => rfl
                      | bsControl c2 => rfl

/-- The skip loop runs through a control sequence whose only `Eof` is
its final element. -/
theorem skipBsControls_encode (cs : List BsControl) (ce : BsControl)
    (tail : List PbMsg) (hcs : ∀ c ∈ cs, c.eof = false)
    (hce : ce.eof = true) :
    skipBsControls (cs.map .bsControl ++ .bsControl ce :: tail) =
      .ok tail := by
  induction cs with
  | nil => simp [skipBsControls, hce]
  | cons c cs ih =>
      have hc := hcs c (by simp)
      simp [skipBsControls, hc, ih (fun d hd => hcs d (by simp [hd]))]

/-- C5: after a BSDIFF series (header, control triples up to the `Eof`
sentinel), the next message must be a `SyncOp` of type
`HEY_YOU_DID_IT`; when it is a `SyncOp` of any other type, both the
analyzing consumer (`analyzeBsdiff`) and the skipping consumer
(`skipSeries`) fail with a fatal malformed-patch error instead of
continuing. -/
theorem bsdiff_series_requires_hey (t : Int) (cs : List BsControl)
    (ce : BsControl) (op : SyncOp) (rest : List PbMsg)
    (hcs : ∀ c ∈ cs, c.eof = false) (hce : ce.eof = true)
    (hop : op.ty ≠ .heyYouDidIt) :
    analyzeBsdiff (.bsdiffHeader t ::
        (cs.map .bsControl ++ .bsControl ce :: .syncOp op :: rest)) =
      .error () ∧
    skipSeries .bsdiff (.bsdiffHeader t ::
        (cs.map .bsControl ++ .bsControl ce :: .syncOp op :: rest)) =
      .error () := by
  have hskip := skipBsControls_encode cs ce (.syncOp op :: rest) hcs hce
  have hana := analyzeBsControls_rest
    (cs.map .bsControl ++ .bsControl ce :: .syncOp op :: rest) ⟨0, 0, 0, 0⟩
  rw [hskip] at hana
  constructor
  · unfold analyzeBsdiff
    dsimp only
    cases hab : analyzeBsControls
        (cs.map .bsControl ++ .bsControl ce :: .syncOp op :: rest)
        ⟨0, 0, 0, 0⟩ with
    | error e => rfl
    | ok p =>
        rw [hab] at hana
        simp only [Except.map, Except.ok.injEq] at hana
        simp only [exc_bind_ok]
        obtain ⟨st, r1⟩ := p
        simp only at hana
        dsimp only
        rw [hana]
        simp [hop]
  · unfold skipSeries
    dsimp only
    rw [hskip]
    simp only [exc_bind_ok]
    simp [hop]

/-- Witness for C5 at a concrete input: a series of one `Eof` control
followed by a `BLOCK_RANGE` op where `HEY_YOU_DID_IT` is required. -/
theorem bsdiff_series_requires_hey_witness :
    analyzeBsdiff (.bsdiffHeader 0 ::
        (([] : List BsControl).map .bsControl ++
          .bsControl ⟨[], [], 0, true⟩ ::
            .syncOp ⟨.blockRange, 0, 0, 0, []⟩ :: [])) = .error () ∧
    skipSeries .bsdiff (.bsdiffHeader 0 ::
        (([] : List BsControl).map .bsControl ++
          .bsControl ⟨[], [], 0, true⟩ ::
            .syncOp ⟨.blockRange, 0, 0, 0, []⟩ :: [])) = .error () :=
  bsdiff_series_requires_hey 0 [] ⟨[], [], 0, true⟩
    ⟨.blockRange, 0, 0, 0, []⟩ [] (by simp) rfl (by simp)

end Butler
